import Mathlib

/-!
Shallow embedding of `src/data_collection.py` (Mastodon data-collection
scripts): the windowed streaming paginator, the per-day bucketed paginator,
and the follower paginator, together with proofs of the testable
properties stated in the specification.

Timestamps are modelled as integers (seconds since the epoch, UTC);
`dateOf` is the calendar-date projection (`datetime.date()` of a UTC
datetime), i.e. floor division by 86400.
-/

namespace Masto

/-- A hashtag as it appears on a status (`status["tags"]` entries). -/
structure Tag where
  name : String
deriving DecidableEq, Repr

/-- The nested account object of a feed item. -/
structure Account where
  id : Int
  acct : String
  username : String
  followers_count : Int
  following_count : Int
  statuses_count : Int
deriving DecidableEq, Repr

/-- A feed item (status) as returned by `client.timeline_public`.
`replies_count` and `tags` are optional because the source reads them with
`status.get("replies_count", 0)` / `status.get("tags", [])`; all other
fields are accessed with mandatory indexing. -/
structure Status where
  id : Int
  created_at : Int
  account : Account
  reblogs_count : Int
  favourites_count : Int
  replies_count : Option Int
  tags : Option (List Tag)
deriving DecidableEq, Repr

/-- Calendar date (epoch-day number) of a timestamp: `ts.date()`. -/
def dateOf (ts : Int) : Int := Int.fdiv ts 86400

/-- The flattened record written by `fetch_local_statuses_in_date_range`
(the `rec` dict built at lines 73-82 of the source). -/
structure StRec where
  id : Int
  created_at : Int
  account_id : Int
  account_acct : String
  reblogs_count : Int
  favourites_count : Int
  replies_count : Int
  tag_list : List String
deriving DecidableEq, Repr

/-- The projection `rec = {...}` of `fetch_local_statuses_in_date_range`:
`replies_count` defaults to 0 and `tags` to the empty list via `.get`. -/
def mkRec (s : Status) : StRec :=
  { id := s.id
    created_at := s.created_at
    account_id := s.account.id
    account_acct := s.account.acct
    reblogs_count := s.reblogs_count
    favourites_count := s.favourites_count
    replies_count := s.replies_count.getD 0
    tag_list := (s.tags.getD []).map Tag.name }

/-- One `to_csv(mode="a", header=..)` call: a batch of rows appended to the
output file, with or without the column header line. -/
structure Write (α : Type) where
  header : Bool
  rows : List α
deriving DecidableEq, Repr

/-- All rows written across a sequence of appends, in file order. -/
def outRows {α : Type} (out : List (Write α)) : List α :=
  (out.map Write.rows).flatten

/-- The paginated feed: `client.timeline_public(limit=page_size, max_id=max_id)`.
First argument is the page size, second the cursor (`None` on the first call). -/
abbrev Feed : Type := Nat → Option Int → List Status

/-- Mutable state of the streaming paginator's loop: the `first_write` flag,
the in-memory `buffer`, and the writes performed so far. -/
structure StState where
  first_write : Bool
  buffer : List StRec
  out : List (Write StRec)
deriving DecidableEq, Repr

/-- The flush `if buffer: pd.DataFrame(buffer).to_csv(out_path, mode="a", header=first_write)` —
the flush performed on early stop and on normal exhaustion. -/
def flushBuf (st : StState) : List (Write StRec) :=
  if st.buffer = [] then st.out else st.out ++ [⟨st.first_write, st.buffer⟩]

/-- Processing of a single status that did not trigger the early stop:
the `if since <= ts <= until:` body (append, flush when the buffer
reaches `flush_every`). `untl` embeds the source's `until` parameter. -/
def stepAccept (since untl : Int) (flush_every : Nat) (s : Status)
    (st : StState) : StState :=
  if since ≤ s.created_at ∧ s.created_at ≤ untl then
    let buf := st.buffer ++ [mkRec s]
    if flush_every ≤ buf.length then
      ⟨false, [], st.out ++ [⟨st.first_write, buf⟩]⟩
    else
      ⟨st.first_write, buf, st.out⟩
  else st

/-- Result of the `for status in batch:` loop: either the function returned
early (final output known), or the page was fully scanned. -/
inductive PageRes where
  | stop (out : List (Write StRec))
  | next (st : StState)
deriving DecidableEq, Repr

/-- The `for status in batch:` loop of `fetch_local_statuses_in_date_range`:
a record older than `since` flushes the buffer and returns; otherwise the
record is handled by `stepAccept`. -/
def processStatuses (since untl : Int) (flush_every : Nat) :
    List Status → StState → PageRes
  | [], st => .next st
  | s :: rest, st =>
    if s.created_at < since then .stop (flushBuf st)
    else processStatuses since untl flush_every rest (stepAccept since untl flush_every s st)

/-- The `while True:` loop of `fetch_local_statuses_in_date_range`, with
fuel for termination. Returns the list of cursors passed to the feed and
the final sequence of writes, or `none` on fuel exhaustion. -/
def runStream (feed : Feed) (since untl : Int) (page_size flush_every : Nat) :
    Nat → Option Int → StState → List (Option Int) →
    Option (List (Option Int) × List (Write StRec))
  | 0, _, _, _ => none
  | fuel + 1, max_id, st, calls =>
    let batch := feed page_size max_id
    if h : batch = [] then some (calls ++ [max_id], flushBuf st)
    else
      match processStatuses since untl flush_every batch st with
      | .stop out => some (calls ++ [max_id], out)
      | .next st' =>
        runStream feed since untl page_size flush_every fuel
          (some ((batch.getLast h).id - 1)) st' (calls ++ [max_id])

/-- Entry point `fetch_local_statuses_in_date_range(client, since, until, out_path,
page_size, flush_every)`: start with no cursor, `first_write = True` and an
empty buffer. -/
def fetch_local_statuses_in_date_range (feed : Feed) (since untl : Int)
    (page_size flush_every : Nat) (fuel : Nat) :
    Option (List (Option Int) × List (Write StRec)) :=
  runStream feed since untl page_size flush_every fuel none ⟨true, [], []⟩ []

/-- The record built by `fetch_fixed_per_day` (lines 148-161): the streaming
record plus four extra account fields. -/
structure DayRec where
  id : Int
  created_at : Int
  account_id : Int
  account_acct : String
  account_username : String
  account_followers_count : Int
  account_following_count : Int
  account_statuses_count : Int
  reblogs_count : Int
  favourites_count : Int
  replies_count : Int
  tag_list : List String
deriving DecidableEq, Repr

/-- The projection `rec = {...}` of `fetch_fixed_per_day`. -/
def mkDayRec (s : Status) : DayRec :=
  { id := s.id
    created_at := s.created_at
    account_id := s.account.id
    account_acct := s.account.acct
    account_username := s.account.username
    account_followers_count := s.account.followers_count
    account_following_count := s.account.following_count
    account_statuses_count := s.account.statuses_count
    reblogs_count := s.reblogs_count
    favourites_count := s.favourites_count
    replies_count := s.replies_count.getD 0
    tag_list := (s.tags.getD []).map Tag.name }

/-- The `reservoirs` dict (`defaultdict(list)`), modelled as an association
list from calendar date to the accumulated records for that date. -/
abbrev Reservoirs : Type := List (Int × List DayRec)

/-- Read `reservoirs[d]` (defaultdict: missing key reads as `[]`). -/
def getRes (res : Reservoirs) (d : Int) : List DayRec :=
  match res.lookup d with
  | some l => l
  | none => []

/-- Delete `del reservoirs[d]` (also the no-entry state for a key never touched). -/
def delRes (res : Reservoirs) (d : Int) : Reservoirs :=
  res.filter (fun p => p.1 ≠ d)

/-- Update `reservoirs[d] = l` (dict update). -/
def setRes (res : Reservoirs) (d : Int) (l : List DayRec) : Reservoirs :=
  (d, l) :: delRes res d

/-- Initialisation `needed_dates` as the set of dates `start_date + timedelta(days=i)` for `i in range(num_days)`
with `num_days = (end_date - start_date).days + 1`. -/
def neededDatesInit (since untl : Int) : Finset Int :=
  Finset.image (fun i : ℕ => dateOf since + (i : Int))
    (Finset.range (dateOf untl - dateOf since + 1).toNat)

/-- Loop state of `fetch_fixed_per_day`: the needed-date set, the
reservoirs, the `first_write` flag, the writes so far, and whether the walk
has already seen a record older than `since` (the `ts < since` branch,
which clears the needed set). -/
structure PDState where
  needed : Finset Int
  res : Reservoirs
  first_write : Bool
  out : List (Write DayRec)
  past_window : Bool
deriving DecidableEq

/-- Final observable outcome of `fetch_fixed_per_day`: the writes, the
needed-date set at the moment the exhaustion warning was logged (if it
was), the past-window flag, and the final needed set and reservoirs. -/
structure PDResult where
  out : List (Write DayRec)
  warnedAt : Option (Finset Int)
  past_window : Bool
  needed : Finset Int
  res : Reservoirs
deriving DecidableEq

/-- The `for st in batch:` loop of `fetch_fixed_per_day`: a record older
than `since` clears the needed set and breaks; a record whose date is not
needed is skipped; otherwise it is appended to its date's reservoir, and
when that reservoir reaches exactly `per_day` records it is written out,
deleted, and its date removed from the needed set. -/
def processDayBatch (since : Int) (per_day : Nat) :
    List Status → PDState → PDState
  | [], st => st
  | s :: rest, st =>
    if s.created_at < since then
      { st with needed := ∅, past_window := true }
    else
      let d := dateOf s.created_at
      if d ∉ st.needed then processDayBatch since per_day rest st
      else
        let l := getRes st.res d ++ [mkDayRec s]
        if l.length = per_day then
          processDayBatch since per_day rest
            { needed := st.needed.erase d
              res := delRes (setRes st.res d l) d
              first_write := false
              out := st.out ++ [⟨st.first_write, l⟩]
              past_window := st.past_window }
        else
          processDayBatch since per_day rest { st with res := setRes st.res d l }

/-- The `while needed_dates:` loop of `fetch_fixed_per_day`, with fuel.
An empty page logs the exhaustion warning (recorded together with the
needed set at that moment) and breaks. -/
def runPerDay (feed : Feed) (since : Int) (page_size per_day : Nat) :
    Nat → Option Int → PDState → Option PDResult
  | 0, _, _ => none
  | fuel + 1, max_id, st =>
    if st.needed = ∅ then
      some ⟨st.out, none, st.past_window, st.needed, st.res⟩
    else
      let batch := feed page_size max_id
      if h : batch = [] then
        some ⟨st.out, some st.needed, st.past_window, st.needed, st.res⟩
      else
        let st' := processDayBatch since per_day batch st
        runPerDay feed since page_size per_day fuel
          (some ((batch.getLast h).id - 1)) st'

/-- Entry point `fetch_fixed_per_day(client, since, until, out_path, page_size, per_day)`. -/
def fetch_fixed_per_day (feed : Feed) (since untl : Int)
    (page_size per_day : Nat) (fuel : Nat) : Option PDResult :=
  runPerDay feed since page_size per_day fuel none
    ⟨neededDatesInit since untl, [], true, [], false⟩

/-- An account object from `client.account_followers`; only the `id` field
is read by the paginator, the rest of the payload is opaque. -/
structure Follower where
  id : Int
  payload : String
deriving DecidableEq, Repr

/-- The follower feed for one `account_id`:
`client.account_followers(account_id, limit=page_size, max_id=max_id)`. -/
abbrev FolFeed : Type := Nat → Option Int → List Follower

/-- The `while True:` loop of `fetch_followers_for_account`, with fuel:
extend `all_followers` with each non-empty page, advance the cursor to the
last record's id minus one, stop on an empty page. Returns the list of
cursors passed to the feed and the accumulated followers. -/
def runFollowers (feed : FolFeed) (page_size : Nat) :
    Nat → Option Int → List Follower → List (Option Int) →
    Option (List (Option Int) × List Follower)
  | 0, _, _, _ => none
  | fuel + 1, max_id, acc, calls =>
    let batch := feed page_size max_id
    if h : batch = [] then some (calls ++ [max_id], acc)
    else
      runFollowers feed page_size fuel (some ((batch.getLast h).id - 1))
        (acc ++ batch) (calls ++ [max_id])

/-- Entry point `fetch_followers_for_account(client, account_id, out_path, page_size)`:
after the loop, the accumulated list is written to the output in a single
`to_csv` call (header included). -/
def fetch_followers_for_account (feed : FolFeed) (page_size : Nat)
    (fuel : Nat) : Option (List (Option Int) × List Follower × List (Write Follower)) :=
  match runFollowers feed page_size fuel none [] [] with
  | none => none
  | some (calls, acc) => some (calls, acc, [⟨true, acc⟩])

/-! ### Derived notions used to state the properties -/

/-- All records held by the streaming paginator, written or still buffered. -/
def allRows (st : StState) : List StRec := outRows st.out ++ st.buffer

/-- Header pattern of an append sequence: the first write carries the
column header, every later one does not. -/
def headerPat : Nat → List Bool
  | 0 => []
  | n + 1 => true :: List.replicate n false

/-- Number of output rows whose calendar date is `d`. -/
def countD (d : Int) (out : List (Write DayRec)) : Nat :=
  ((outRows out).filter (fun r => dateOf r.created_at = d)).length

/-- All records held in the per-day reservoirs. -/
def resRows (res : Reservoirs) : List DayRec := (res.map Prod.snd).flatten

/-- All records held by the per-day paginator, written or still reservoired. -/
def allDayRows (st : PDState) : List DayRec := outRows st.out ++ resRows st.res

/-- Run invariant of the streaming paginator: `first_write` is set exactly
until the first write happens, every write performed inside the loop holds
exactly `flush_every` rows, the header flags follow `headerPat`, and the
buffer stays strictly below `flush_every`. -/
def SInv (fe : Nat) (st : StState) : Prop :=
  (st.first_write = true ↔ st.out = []) ∧
  (∀ w ∈ st.out, w.rows.length = fe) ∧
  st.out.map Write.header = headerPat st.out.length ∧
  st.buffer.length < fe

/-- Window invariant of the per-day paginator: output rows are at or after
`since` and dated no later than `until`'s calendar date, reservoir rows are
keyed by their own date and at or after `since`, and the needed set only
shrinks from its initial value. -/
def PDWindowInv (since untl : Int) (st : PDState) : Prop :=
  (∀ r ∈ outRows st.out, since ≤ r.created_at ∧ dateOf r.created_at ≤ dateOf untl) ∧
  (∀ d, ∀ r ∈ getRes st.res d, dateOf r.created_at = d ∧ since ≤ r.created_at) ∧
  st.needed ⊆ neededDatesInit since untl

/-- Quota-accounting invariant of the per-day paginator: still-needed dates
have no output rows yet, each date's output count is either zero or exactly
the quota, a date no longer needed was filled (as long as the walk has not
stepped past the window), reservoir rows sit under their own date, and each
write is a full bucket. -/
def CInv (initial : Finset Int) (pd : Nat) (st : PDState) : Prop :=
  st.needed ⊆ initial ∧
  (∀ d ∈ st.needed, countD d st.out = 0) ∧
  (∀ d, countD d st.out = 0 ∨ countD d st.out = pd) ∧
  (st.past_window = false → ∀ d ∈ initial, d ∉ st.needed → countD d st.out = pd) ∧
  (∀ d, ∀ r ∈ getRes st.res d, dateOf r.created_at = d) ∧
  (∀ w ∈ st.out, w.rows.length = pd)

/-- The feed returns each page in strictly decreasing identifier order. -/
def FeedSorted (feed : Feed) : Prop :=
  ∀ ps c, ((feed ps c).map Status.id).Pairwise (· > ·)

/-- Every record returned for cursor `c` has identifier at most `c`. -/
def FeedCursorLe (feed : Feed) : Prop :=
  ∀ ps c, ∀ s ∈ feed ps (some c), s.id ≤ c

/-- One cursor advance of the follower paginator: the page at cursor `c`
was non-empty and the next cursor is its last record's id minus one. -/
def folStep (feed : FolFeed) (ps : Nat) (c c' : Option Int) : Prop :=
  feed ps c ≠ [] ∧ c' = some (((feed ps c).map Follower.id).getLastD 0 - 1)

/-! ### Concrete inputs used in witnesses and counterexamples -/

/-- A fixed account object for concrete feeds. -/
def acctEx : Account := ⟨1, "alice", "alice", 7, 8, 9⟩

/-- A status with the given id and timestamp. -/
def stEx (i ts : Int) : Status := ⟨i, ts, acctEx, 0, 0, some 0, some []⟩

/-- Feed for the flush-batching scenario: one page of five in-window
statuses, then exhaustion. -/
def feedFive : Feed := fun _ c =>
  if c = none then [stEx 10 500, stEx 9 400, stEx 8 300, stEx 7 200, stEx 6 100]
  else []

/-- Feed whose single record is dated inside the window's last calendar day
but strictly after `until`. -/
def feedHighTs : Feed := fun _ c => if c = none then [stEx 5 200] else []

/-- Feed that fills the second day's bucket and then steps below `since`
without ever returning an empty page. -/
def feedClearEarly : Feed := fun _ c =>
  if c = none then [stEx 10 90000, stEx 9 (-10)] else []

/-- Feed with one in-window record, then exhaustion. -/
def feedOneLow : Feed := fun _ c => if c = none then [stEx 5 10] else []

/-- Follower feed: two non-empty pages, then exhaustion. -/
def folFeedEx : FolFeed := fun _ c =>
  match c with
  | none => [⟨10, "x"⟩, ⟨8, "y"⟩]
  | some 7 => [⟨5, "z"⟩]
  | some _ => []

/-- A status lacking both `replies_count` and `tags`. -/
def stMissing : Status := ⟨3, 50, acctEx, 2, 4, none, none⟩

/-- The streaming paginator's initial state. -/
def stEmpty : StState := ⟨true, [], []⟩

/-- A streaming state holding one buffered record and no writes yet. -/
def stOne : StState := ⟨true, [mkRec (stEx 9 400)], []⟩

/-- A per-day state needing only date 0, with empty reservoirs. -/
def pdStExp : PDState := ⟨{0}, [], true, [], false⟩

/-- A feed that is empty from the very first call. -/
def emptyFeed : Feed := fun _ _ => []

/-- Expected streaming output for `feedFive` with `flush_every = 2`. -/
def outFiveExp : List (Write StRec) :=
  [⟨true, [mkRec (stEx 10 500), mkRec (stEx 9 400)]⟩,
   ⟨false, [mkRec (stEx 8 300), mkRec (stEx 7 200)]⟩,
   ⟨false, [mkRec (stEx 6 100)]⟩]

/-- Expected per-day outcome for `feedHighTs` on window [0, 100], quota 1. -/
def resHighExp : PDResult := ⟨[⟨true, [mkDayRec (stEx 5 200)]⟩], none, false, ∅, []⟩

/-- Expected per-day outcome for `feedClearEarly` on [0, 172799], quota 1. -/
def resClearExp : PDResult := ⟨[⟨true, [mkDayRec (stEx 10 90000)]⟩], none, true, ∅, []⟩

/-- Expected per-day outcome for `feedOneLow` on [0, 86399], quota 2. -/
def resLowExp : PDResult := ⟨[], some {0}, false, {0}, [(0, [mkDayRec (stEx 5 10)])]⟩

/-- Expected accumulated followers for `folFeedEx`. -/
def folAccExp : List Follower := [⟨10, "x"⟩, ⟨8, "y"⟩, ⟨5, "z"⟩]

/-! ### Basic rewriting lemmas -/

@[simp]
lemma outRows_nil {α : Type} : outRows ([] : List (Write α)) = [] := rfl

@[simp]
lemma outRows_append {α : Type} (a b : List (Write α)) :
    outRows (a ++ b) = outRows a ++ outRows b := by
  simp [outRows]

@[simp]
lemma outRows_cons {α : Type} (w : Write α) (l : List (Write α)) :
    outRows (w :: l) = w.rows ++ outRows l := by
  simp [outRows]

lemma outRows_flushBuf (st : StState) : outRows (flushBuf st) = allRows st := by
  unfold flushBuf allRows
  split
  · simp [*]
  · simp

lemma allRows_stepAccept (since untl : Int) (fe : Nat) (s : Status) (st : StState) :
    allRows (stepAccept since untl fe s st) =
      if since ≤ s.created_at ∧ s.created_at ≤ untl then allRows st ++ [mkRec s]
      else allRows st := by
  unfold stepAccept allRows
  by_cases hw : since ≤ s.created_at ∧ s.created_at ≤ untl
  · simp only [if_pos hw]
    by_cases hf : fe ≤ st.buffer.length + 1
    · simp [hf]
    · simp [hf]
  · simp [if_neg hw]

/-! ### Streaming paginator: window invariant -/

lemma processStatuses_window (since untl : Int) (fe : Nat) (batch : List Status)
    (st : StState)
    (hst : ∀ r ∈ allRows st, since ≤ r.created_at ∧ r.created_at ≤ untl) :
    (∀ o, processStatuses since untl fe batch st = .stop o →
       ∀ r ∈ outRows o, since ≤ r.created_at ∧ r.created_at ≤ untl) ∧
    (∀ st', processStatuses since untl fe batch st = .next st' →
       ∀ r ∈ allRows st', since ≤ r.created_at ∧ r.created_at ≤ untl) := by
  induction batch generalizing st with
  | nil =>
    refine ⟨fun o ho => by simp [processStatuses] at ho, fun st' hst' => ?_⟩
    simp [processStatuses] at hst'
    exact hst' ▸ hst
  | cons s rest ih =>
    by_cases hlt : s.created_at < since
    · refine ⟨fun o ho => ?_, fun st' hst' => ?_⟩
      · simp [processStatuses, hlt] at ho
        rw [← ho, outRows_flushBuf]
        exact hst
      · simp [processStatuses, hlt] at hst'
    · have hrec : ∀ r ∈ allRows (stepAccept since untl fe s st),
          since ≤ r.created_at ∧ r.created_at ≤ untl := by
        intro r hr
        rw [allRows_stepAccept] at hr
        by_cases hw : since ≤ s.created_at ∧ s.created_at ≤ untl
        · rw [if_pos hw] at hr
          rcases List.mem_append.mp hr with h | h
          · exact hst r h
          · simp at h
            subst h
            exact hw
        · rw [if_neg hw] at hr
          exact hst r hr
      have := ih (stepAccept since untl fe s st) hrec
      refine ⟨fun o ho => ?_, fun st' hst' => ?_⟩
      · simp only [processStatuses, if_neg hlt] at ho
        exact this.1 o ho
      · simp only [processStatuses, if_neg hlt] at hst'
        exact this.2 st' hst'

lemma runStream_window (feed : Feed) (since untl : Int) (ps fe : Nat)
    (fuel : Nat) (max_id : Option Int) (st : StState) (calls : List (Option Int))
    (hst : ∀ r ∈ allRows st, since ≤ r.created_at ∧ r.created_at ≤ untl)
    (calls' : List (Option Int)) (out : List (Write StRec))
    (hrun : runStream feed since untl ps fe fuel max_id st calls = some (calls', out)) :
    ∀ r ∈ outRows out, since ≤ r.created_at ∧ r.created_at ≤ untl := by
  induction fuel generalizing max_id st calls with
  | zero => simp [runStream] at hrun
  | succ n ih =>
    rw [runStream] at hrun
    by_cases hb : feed ps max_id = []
    · rw [dif_pos hb] at hrun
      have hout : out = flushBuf st := by
        injection hrun with h
        injection h with _ h2
        exact h2.symm
      rw [hout, outRows_flushBuf]
      exact hst
    · rw [dif_neg hb] at hrun
      rcases hpr : processStatuses since untl fe (feed ps max_id) st with o | st₁
      · rw [hpr] at hrun
        have hout : out = o := by
          injection hrun with h
          injection h with _ h2
          exact h2.symm
        exact hout ▸ (processStatuses_window since untl fe (feed ps max_id) st hst).1 o hpr
      · rw [hpr] at hrun
        exact ih _ _ _
          ((processStatuses_window since untl fe (feed ps max_id) st hst).2 st₁ hpr) hrun

/-! ### Streaming paginator: flush-batch shape invariant -/

lemma headerPat_snoc_false (n : Nat) (hn : 1 ≤ n) :
    headerPat n ++ [false] = headerPat (n + 1) := by
  cases n with
  | zero => omega
  | succ k => simp [headerPat, List.replicate_succ']

lemma headers_snoc (st : StState) (rows : List StRec)
    (h1 : st.first_write = true ↔ st.out = [])
    (h3 : st.out.map Write.header = headerPat st.out.length) :
    (st.out ++ [Write.mk st.first_write rows]).map Write.header =
      headerPat (st.out.length + 1) := by
  by_cases ho : st.out = []
  · have hfw : st.first_write = true := h1.mpr ho
    simp [ho, hfw, headerPat]
  · have hfw : st.first_write = false := by
      cases hfw : st.first_write
      · rfl
      · exact absurd (h1.mp hfw) ho
    have hlen : 1 ≤ st.out.length := List.length_pos.mpr ho
    rw [List.map_append, h3, hfw]
    simpa using headerPat_snoc_false st.out.length hlen

lemma stepAccept_SInv (since untl : Int) (fe : Nat) (s : Status) (st : StState)
    (hfe : 1 ≤ fe) (h : SInv fe st) : SInv fe (stepAccept since untl fe s st) := by
  obtain ⟨h1, h2, h3, h4⟩ := h
  unfold stepAccept
  by_cases hw : since ≤ s.created_at ∧ s.created_at ≤ untl
  · simp only [if_pos hw]
    by_cases hf : fe ≤ (st.buffer ++ [mkRec s]).length
    · simp only [if_pos hf]
      have hlen : (st.buffer ++ [mkRec s]).length = fe := by
        simp only [List.length_append, List.length_cons, List.length_nil] at hf ⊢
        omega
      refine ⟨by simp, ?_, ?_, by simpa using hfe⟩
      · intro w hw'
        rcases List.mem_append.mp hw' with h | h
        · exact h2 w h
        · simp at h
          rw [h]
          exact hlen
      · simpa using headers_snoc st (st.buffer ++ [mkRec s]) h1 h3
    · simp only [if_neg hf]
      refine ⟨h1, h2, h3, ?_⟩
      simp only [List.length_append, List.length_cons, List.length_nil] at hf ⊢
      omega
  · simpa [if_neg hw] using ⟨h1, h2, h3, h4⟩

/-- Shape of a finished output: some number of full batches of
`flush_every` rows, then at most one strictly smaller final batch, with the
header on the first write only. -/
lemma flushBuf_shape (fe : Nat) (st : StState) (hfe : 1 ≤ fe) (h : SInv fe st) :
    ∃ k b, b < fe ∧
      (flushBuf st).map (fun w => w.rows.length) =
        List.replicate k fe ++ (if b = 0 then [] else [b]) ∧
      (flushBuf st).map Write.header = headerPat (flushBuf st).length := by
  obtain ⟨h1, h2, h3, h4⟩ := h
  have hrep : st.out.map (fun w => w.rows.length) = List.replicate st.out.length fe := by
    rw [List.eq_replicate_iff]
    refine ⟨by simp, ?_⟩
    intro b hb
    rcases List.mem_map.mp hb with ⟨w, hw, hwb⟩
    rw [← hwb]
    exact h2 w hw
  unfold flushBuf
  by_cases hb : st.buffer = []
  · refine ⟨st.out.length, 0, hfe, ?_, ?_⟩
    · simp [hb, hrep]
    · simp [hb, h3]
  · refine ⟨st.out.length, st.buffer.length, h4, ?_, ?_⟩
    · have : st.buffer.length ≠ 0 := by
        simpa using hb
      simp [hb, hrep, this]
    · simp only [if_neg hb]
      simpa using headers_snoc st st.buffer h1 h3

lemma processStatuses_SInv (since untl : Int) (fe : Nat) (batch : List Status)
    (st : StState) (hfe : 1 ≤ fe) (h : SInv fe st) :
    (∀ o, processStatuses since untl fe batch st = .stop o →
       ∃ st₁, SInv fe st₁ ∧ o = flushBuf st₁) ∧
    (∀ st', processStatuses since untl fe batch st = .next st' → SInv fe st') := by
  induction batch generalizing st with
  | nil =>
    refine ⟨fun o ho => by simp [processStatuses] at ho, fun st' hst' => ?_⟩
    simp [processStatuses] at hst'
    exact hst' ▸ h
  | cons s rest ih =>
    by_cases hlt : s.created_at < since
    · refine ⟨fun o ho => ?_, fun st' hst' => ?_⟩
      · simp [processStatuses, hlt] at ho
        exact ⟨st, h, ho.symm⟩
      · simp [processStatuses, hlt] at hst'
    · have := ih (stepAccept since untl fe s st) (stepAccept_SInv since untl fe s st hfe h)
      refine ⟨fun o ho => ?_, fun st' hst' => ?_⟩
      · simp only [processStatuses, if_neg hlt] at ho
        exact this.1 o ho
      · simp only [processStatuses, if_neg hlt] at hst'
        exact this.2 st' hst'

lemma runStream_shape (feed : Feed) (since untl : Int) (ps fe : Nat)
    (fuel : Nat) (max_id : Option Int) (st : StState) (calls : List (Option Int))
    (hfe : 1 ≤ fe) (h : SInv fe st)
    (calls' : List (Option Int)) (out : List (Write StRec))
    (hrun : runStream feed since untl ps fe fuel max_id st calls = some (calls', out)) :
    ∃ k b, b < fe ∧
      out.map (fun w => w.rows.length) =
        List.replicate k fe ++ (if b = 0 then [] else [b]) ∧
      out.map Write.header = headerPat out.length := by
  induction fuel generalizing max_id st calls with
  | zero => simp [runStream] at hrun
  | succ n ih =>
    rw [runStream] at hrun
    by_cases hb : feed ps max_id = []
    · rw [dif_pos hb] at hrun
      have hout : out = flushBuf st := by
        injection hrun with h'
        injection h' with _ h2
        exact h2.symm
      exact hout ▸ flushBuf_shape fe st hfe h
    · rw [dif_neg hb] at hrun
      rcases hpr : processStatuses since untl fe (feed ps max_id) st with o | st₁
      · rw [hpr] at hrun
        have hout : out = o := by
          injection hrun with h'
          injection h' with _ h2
          exact h2.symm
        obtain ⟨st₁, hinv, ho⟩ :=
          (processStatuses_SInv since untl fe (feed ps max_id) st hfe h).1 o hpr
        exact hout ▸ ho ▸ flushBuf_shape fe st₁ hfe hinv
      · rw [hpr] at hrun
        exact ih _ _ _
          ((processStatuses_SInv since untl fe (feed ps max_id) st hfe h).2 st₁ hpr) hrun

/-! ### Streaming paginator: no-duplicate invariant -/

lemma getLast_id_le (batch : List Status) (h : batch ≠ [])
    (hp : (batch.map Status.id).Pairwise (· > ·)) :
    ∀ s ∈ batch, (batch.getLast h).id ≤ s.id := by
  induction batch with
  | nil => exact absurd rfl h
  | cons a t ih =>
    intro s hs
    by_cases ht : t = []
    · subst ht
      simp at hs
      simp [hs]
    · rw [List.getLast_cons ht]
      simp only [List.map_cons, List.pairwise_cons] at hp
      rcases List.mem_cons.mp hs with rfl | hst
      · have hmem : (t.getLast ht).id ∈ t.map Status.id :=
          List.mem_map_of_mem Status.id (List.getLast_mem ht)
        exact le_of_lt (hp.1 _ hmem)
      · exact ih ht hp.2 s hst

lemma mkRec_id (s : Status) : (mkRec s).id = s.id := rfl

lemma processStatuses_nodup (since untl : Int) (fe : Nat) (batch : List Status)
    (st : StState)
    (hp : (batch.map Status.id).Pairwise (· > ·))
    (hn : ((allRows st).map StRec.id).Nodup)
    (hlt : ∀ r ∈ allRows st, ∀ s ∈ batch, s.id < r.id) :
    (∀ o, processStatuses since untl fe batch st = .stop o →
       ((outRows o).map StRec.id).Nodup) ∧
    (∀ st', processStatuses since untl fe batch st = .next st' →
       ((allRows st').map StRec.id).Nodup ∧
       ∀ r ∈ allRows st', r ∈ allRows st ∨ r.id ∈ batch.map Status.id) := by
  induction batch generalizing st with
  | nil =>
    refine ⟨fun o ho => by simp [processStatuses] at ho, fun st' hst' => ?_⟩
    simp [processStatuses] at hst'
    subst hst'
    exact ⟨hn, fun r hr => Or.inl hr⟩
  | cons s rest ih =>
    by_cases hlts : s.created_at < since
    · refine ⟨fun o ho => ?_, fun st' hst' => ?_⟩
      · simp [processStatuses, hlts] at ho
        rw [← ho, outRows_flushBuf]
        exact hn
      · simp [processStatuses, hlts] at hst'
    · have hrows := allRows_stepAccept since untl fe s st
      have hmemstep : ∀ r ∈ allRows (stepAccept since untl fe s st),
          r ∈ allRows st ∨ r = mkRec s := by
        intro r hr
        rw [hrows] at hr
        by_cases hw : since ≤ s.created_at ∧ s.created_at ≤ untl
        · rw [if_pos hw] at hr
          rcases List.mem_append.mp hr with h | h
          · exact Or.inl h
          · simp at h
            exact Or.inr h
        · rw [if_neg hw] at hr
          exact Or.inl hr
      have hsid : s.id ∉ (allRows st).map StRec.id := by
        intro hmem
        rcases List.mem_map.mp hmem with ⟨r, hr, hrid⟩
        exact absurd (hlt r hr s (List.mem_cons_self s rest)) (by omega)
      have hn₁ : ((allRows (stepAccept since untl fe s st)).map StRec.id).Nodup := by
        rw [hrows]
        by_cases hw : since ≤ s.created_at ∧ s.created_at ≤ untl
        · rw [if_pos hw, List.map_append]
          rw [List.nodup_append]
          refine ⟨hn, by simp, ?_⟩
          intro x hx hy
          simp [mkRec_id] at hy
          exact hsid (hy ▸ hx)
        · rw [if_neg hw]
          exact hn
      have hgt : ∀ x ∈ rest.map Status.id, s.id > x := by
        simp only [List.map_cons, List.pairwise_cons] at hp
        exact hp.1
      have hlt₁ : ∀ r ∈ allRows (stepAccept since untl fe s st), ∀ s' ∈ rest,
          s'.id < r.id := by
        intro r hr s' hs'
        rcases hmemstep r hr with h | h
        · exact hlt r h s' (List.mem_cons_of_mem s hs')
        · have := hgt s'.id (List.mem_map_of_mem Status.id hs')
          rw [h, mkRec_id]
          omega
      have hp' : (rest.map Status.id).Pairwise (· > ·) := by
        simp only [List.map_cons, List.pairwise_cons] at hp
        exact hp.2
      have := ih (stepAccept since untl fe s st) hp' hn₁ hlt₁
      refine ⟨fun o ho => ?_, fun st' hst' => ?_⟩
      · simp only [processStatuses, if_neg hlts] at ho
        exact this.1 o ho
      · simp only [processStatuses, if_neg hlts] at hst'
        obtain ⟨hnd, hmem⟩ := this.2 st' hst'
        refine ⟨hnd, fun r hr => ?_⟩
        rcases hmem r hr with h | h
        · rcases hmemstep r h with h' | h'
          · exact Or.inl h'
          · exact Or.inr (by simp [h', mkRec_id])
        · exact Or.inr (by simp [h])

lemma runStream_nodup (feed : Feed) (since untl : Int) (ps fe : Nat)
    (hs : FeedSorted feed) (hc : FeedCursorLe feed)
    (fuel : Nat) (max_id : Option Int) (st : StState) (calls : List (Option Int))
    (hn : ((allRows st).map StRec.id).Nodup)
    (hcur : ∀ r ∈ allRows st, ∀ s ∈ feed ps max_id, s.id < r.id)
    (calls' : List (Option Int)) (out : List (Write StRec))
    (hrun : runStream feed since untl ps fe fuel max_id st calls = some (calls', out)) :
    ((outRows out).map StRec.id).Nodup := by
  induction fuel generalizing max_id st calls with
  | zero => simp [runStream] at hrun
  | succ n ih =>
    rw [runStream] at hrun
    by_cases hb : feed ps max_id = []
    · rw [dif_pos hb] at hrun
      have hout : out = flushBuf st := by
        injection hrun with h'
        injection h' with _ h2
        exact h2.symm
      rw [hout, outRows_flushBuf]
      exact hn
    · rw [dif_neg hb] at hrun
      rcases hpr : processStatuses since untl fe (feed ps max_id) st with o | st₁
      · rw [hpr] at hrun
        have hout : out = o := by
          injection hrun with h'
          injection h' with _ h2
          exact h2.symm
        exact hout ▸
          (processStatuses_nodup since untl fe (feed ps max_id) st (hs ps max_id) hn hcur).1 o hpr
      · rw [hpr] at hrun
        obtain ⟨hn₁, hmem₁⟩ :=
          (processStatuses_nodup since untl fe (feed ps max_id) st (hs ps max_id) hn hcur).2 st₁ hpr
        refine ih _ _ _ hn₁ ?_ hrun
        intro r hr s' hs'
        have hlast : ((feed ps max_id).getLast hb).id < r.id ∨
            ((feed ps max_id).getLast hb).id ≤ r.id := by
          rcases hmem₁ r hr with h | h
          · exact Or.inl (hcur r h _ (List.getLast_mem hb))
          · rcases List.mem_map.mp h with ⟨s₀, hs₀, hid⟩
            exact Or.inr (hid ▸ getLast_id_le (feed ps max_id) hb (hs ps max_id) s₀ hs₀)
        have hle : s'.id ≤ ((feed ps max_id).getLast hb).id - 1 := hc ps _ s' hs'
        rcases hlast with h | h
        · omega
        · -- new record: its id is at least the last id, which exceeds the new cursor
          omega

/-! ### Reservoir (dict) lemmas -/

lemma getRes_nil (d : Int) : getRes [] d = [] := rfl

lemma getRes_cons (k d : Int) (l : List DayRec) (t : Reservoirs) :
    getRes ((k, l) :: t) d = if d = k then l else getRes t d := by
  by_cases h : d = k
  · subst h
    simp [getRes, List.lookup]
  · have hb : (d == k) = false := by simp [h]
    simp [getRes, List.lookup, hb, h]

lemma delRes_cons (k d : Int) (l : List DayRec) (t : Reservoirs) :
    delRes ((k, l) :: t) d =
      if k = d then delRes t d else (k, l) :: delRes t d := by
  by_cases h : k = d
  · simp [delRes, List.filter_cons, h]
  · simp [delRes, List.filter_cons, h]

lemma resRows_nil : resRows [] = [] := rfl

lemma resRows_cons (k : Int) (l : List DayRec) (t : Reservoirs) :
    resRows ((k, l) :: t) = l ++ resRows t := by
  simp [resRows]

lemma getRes_delRes (res : Reservoirs) (d d' : Int) :
    getRes (delRes res d) d' = if d' = d then [] else getRes res d' := by
  induction res with
  | nil => simp [delRes, getRes_nil]
  | cons p t ih =>
    obtain ⟨k, l⟩ := p
    rw [delRes_cons]
    by_cases hk : k = d
    · rw [if_pos hk, ih, getRes_cons]
      by_cases hd : d' = d
      · simp [hd]
      · have hdk : ¬ d' = k := fun h => hd (h.trans hk)
        simp [hd, hdk]
    · rw [if_neg hk, getRes_cons, getRes_cons]
      by_cases hd : d' = k
      · have hdd : ¬ d' = d := fun h => hk ((hd.symm.trans h) ▸ rfl)
        simp [hd, hdd, hk]
      · rw [if_neg hd, if_neg hd, ih]

lemma getRes_setRes (res : Reservoirs) (d d' : Int) (l : List DayRec) :
    getRes (setRes res d l) d' = if d' = d then l else getRes res d' := by
  rw [setRes, getRes_cons, getRes_delRes]
  by_cases hd : d' = d
  · simp [hd]
  · simp [hd]

lemma delRes_of_not_mem (res : Reservoirs) (d : Int)
    (h : d ∉ res.map Prod.fst) : delRes res d = res := by
  rw [delRes, List.filter_eq_self]
  intro p hp
  have hne : p.1 ≠ d := fun hpd => h (hpd ▸ List.mem_map_of_mem Prod.fst hp)
  simpa using hne

lemma keys_delRes_nodup (res : Reservoirs) (d : Int)
    (h : (res.map Prod.fst).Nodup) : ((delRes res d).map Prod.fst).Nodup :=
  ((List.filter_sublist res).map Prod.fst).nodup h

lemma not_mem_keys_delRes (res : Reservoirs) (d : Int) :
    d ∉ (delRes res d).map Prod.fst := by
  intro hmem
  rcases List.mem_map.mp hmem with ⟨p, hp, hpd⟩
  have hne : ¬ p.1 = d := by simpa using List.of_mem_filter hp
  exact hne hpd

lemma keys_setRes_nodup (res : Reservoirs) (d : Int) (l : List DayRec)
    (h : (res.map Prod.fst).Nodup) : ((setRes res d l).map Prod.fst).Nodup := by
  rw [setRes, List.map_cons, List.nodup_cons]
  exact ⟨not_mem_keys_delRes res d, keys_delRes_nodup res d h⟩

lemma delRes_setRes (res : Reservoirs) (d : Int) (l : List DayRec) :
    delRes (setRes res d l) d = delRes res d := by
  rw [setRes, delRes_cons, if_pos rfl,
    delRes_of_not_mem _ _ (not_mem_keys_delRes res d)]

lemma resRows_delRes_perm (res : Reservoirs) (d : Int)
    (hk : (res.map Prod.fst).Nodup) :
    List.Perm (resRows res) (getRes res d ++ resRows (delRes res d)) := by
  induction res with
  | nil => simp [delRes, getRes_nil, resRows_nil]
  | cons p t ih =>
    obtain ⟨k, l⟩ := p
    rw [List.map_cons, List.nodup_cons] at hk
    rw [resRows_cons, getRes_cons, delRes_cons]
    by_cases hkd : k = d
    · rw [if_pos hkd, if_pos hkd.symm, delRes_of_not_mem t d (hkd ▸ hk.1)]
    · rw [if_neg hkd, if_neg (fun h : d = k => hkd h.symm), resRows_cons]
      have p1 : List.Perm (l ++ resRows t)
          (l ++ (getRes t d ++ resRows (delRes t d))) :=
        (ih hk.2).append_left l
      have p2 : List.Perm (l ++ (getRes t d ++ resRows (delRes t d)))
          (getRes t d ++ (l ++ resRows (delRes t d))) := by
        have h3 := List.Perm.append_right (resRows (delRes t d))
          (@List.perm_append_comm _ l (getRes t d))
        simpa [List.append_assoc] using h3
      exact p1.trans p2

/-! ### Per-day paginator: window invariant -/

lemma mem_neededDatesInit (since untl d : Int) :
    d ∈ neededDatesInit since untl ↔ dateOf since ≤ d ∧ d ≤ dateOf untl := by
  simp only [neededDatesInit, Finset.mem_image, Finset.mem_range]
  constructor
  · rintro ⟨i, hi, rfl⟩
    omega
  · rintro ⟨h1, h2⟩
    exact ⟨(d - dateOf since).toNat, by omega, by omega⟩

lemma mkDayRec_created_at (s : Status) : (mkDayRec s).created_at = s.created_at := rfl

lemma processDayBatch_window (since untl : Int) (pd : Nat) (batch : List Status)
    (st : PDState) (h : PDWindowInv since untl st) :
    PDWindowInv since untl (processDayBatch since pd batch st) := by
  induction batch generalizing st with
  | nil => simpa [processDayBatch] using h
  | cons s rest ih =>
    obtain ⟨h1, h2, h3⟩ := h
    simp only [processDayBatch]
    by_cases hlt : s.created_at < since
    · rw [if_pos hlt]
      exact ⟨h1, h2, fun x hx => absurd hx (Finset.not_mem_empty x)⟩
    · rw [if_neg hlt]
      by_cases hd : dateOf s.created_at ∉ st.needed
      · rw [if_pos hd]
        exact ih _ ⟨h1, h2, h3⟩
      · rw [if_neg hd]
        have hdin : dateOf s.created_at ∈ st.needed := not_not.mp hd
        have hdle : dateOf s.created_at ≤ dateOf untl :=
          ((mem_neededDatesInit since untl _).mp (h3 hdin)).2
        have hnew : ∀ r ∈ getRes st.res (dateOf s.created_at) ++ [mkDayRec s],
            dateOf r.created_at = dateOf s.created_at ∧ since ≤ r.created_at := by
          intro r hr
          rcases List.mem_append.mp hr with h' | h'
          · exact h2 _ r h'
          · simp at h'
            subst h'
            exact ⟨rfl, by rw [mkDayRec_created_at]; omega⟩
        by_cases hq : (getRes st.res (dateOf s.created_at) ++ [mkDayRec s]).length = pd
        · rw [if_pos hq]
          refine ih _ ⟨?_, ?_, ?_⟩
          · intro r hr
            rw [outRows_append] at hr
            rcases List.mem_append.mp hr with h' | h'
            · exact h1 r h'
            · simp only [outRows_cons, outRows_nil, List.append_nil] at h'
              obtain ⟨hdate, hsince⟩ := hnew r h'
              exact ⟨hsince, hdate ▸ hdle⟩
          · intro d' r hr
            rw [delRes_setRes, getRes_delRes] at hr
            by_cases hdd : d' = dateOf s.created_at
            · rw [if_pos hdd] at hr
              simp at hr
            · rw [if_neg hdd] at hr
              exact h2 d' r hr
          · exact fun x hx => h3 (Finset.mem_of_mem_erase hx)
        · rw [if_neg hq]
          refine ih _ ⟨h1, ?_, h3⟩
          intro d' r hr
          rw [getRes_setRes] at hr
          by_cases hdd : d' = dateOf s.created_at
          · rw [if_pos hdd] at hr
            obtain ⟨hdate, hsince⟩ := hnew r hr
            exact ⟨hdd ▸ hdate, hsince⟩
          · rw [if_neg hdd] at hr
            exact h2 d' r hr

lemma runPerDay_window (feed : Feed) (since untl : Int) (ps pd : Nat)
    (fuel : Nat) (max_id : Option Int) (st : PDState)
    (h : PDWindowInv since untl st) (res : PDResult)
    (hrun : runPerDay feed since ps pd fuel max_id st = some res) :
    ∀ r ∈ outRows res.out, since ≤ r.created_at ∧ dateOf r.created_at ≤ dateOf untl := by
  induction fuel generalizing max_id st with
  | zero => simp [runPerDay] at hrun
  | succ n ih =>
    rw [runPerDay] at hrun
    by_cases hne : st.needed = ∅
    · rw [if_pos hne] at hrun
      injection hrun with h'
      rw [← h']
      exact h.1
    · rw [if_neg hne] at hrun
      by_cases hb : feed ps max_id = []
      · rw [dif_pos hb] at hrun
        injection hrun with h'
        rw [← h']
        exact h.1
      · rw [dif_neg hb] at hrun
        exact ih _ _ (processDayBatch_window since untl pd (feed ps max_id) st h) hrun

/-! ### Per-day paginator: quota accounting -/

lemma countD_append (d : Int) (o1 o2 : List (Write DayRec)) :
    countD d (o1 ++ o2) = countD d o1 + countD d o2 := by
  simp [countD, outRows_append, List.filter_append]

lemma countD_single_self (d : Int) (fw : Bool) (l : List DayRec)
    (h : ∀ r ∈ l, dateOf r.created_at = d) :
    countD d [Write.mk fw l] = l.length := by
  have : (outRows [Write.mk fw l]).filter (fun r => dateOf r.created_at = d) = l := by
    simp only [outRows_cons, outRows_nil, List.append_nil]
    rw [List.filter_eq_self]
    intro r hr
    simpa using h r hr
  rw [countD, this]

lemma countD_single_other (d d' : Int) (fw : Bool) (l : List DayRec)
    (h : ∀ r ∈ l, dateOf r.created_at = d) (hne : d' ≠ d) :
    countD d' [Write.mk fw l] = 0 := by
  have : (outRows [Write.mk fw l]).filter (fun r => dateOf r.created_at = d') = [] := by
    simp only [outRows_cons, outRows_nil, List.append_nil]
    rw [List.filter_eq_nil_iff]
    intro r hr
    simp [h r hr, hne.symm]
  rw [countD, this]
  rfl

lemma processDayBatch_CInv (since : Int) (initial : Finset Int) (pd : Nat)
    (batch : List Status) (st : PDState) (h : CInv initial pd st) :
    CInv initial pd (processDayBatch since pd batch st) := by
  induction batch generalizing st with
  | nil => simpa [processDayBatch] using h
  | cons s rest ih =>
    obtain ⟨c1, c2, c3, c4, c5, c6⟩ := h
    simp only [processDayBatch]
    by_cases hlt : s.created_at < since
    · rw [if_pos hlt]
      refine ⟨fun x hx => absurd hx (Finset.not_mem_empty x),
        fun d hd => absurd hd (Finset.not_mem_empty d), c3, ?_, c5, c6⟩
      intro hpw
      exact absurd hpw (by simp)
    · rw [if_neg hlt]
      by_cases hd : dateOf s.created_at ∉ st.needed
      · rw [if_pos hd]
        exact ih _ ⟨c1, c2, c3, c4, c5, c6⟩
      · rw [if_neg hd]
        have hdin : dateOf s.created_at ∈ st.needed := not_not.mp hd
        have hl_all : ∀ r ∈ getRes st.res (dateOf s.created_at) ++ [mkDayRec s],
            dateOf r.created_at = dateOf s.created_at := by
          intro r hr
          rcases List.mem_append.mp hr with h' | h'
          · exact c5 _ r h'
          · simp at h'
            subst h'
            rfl
        by_cases hq : (getRes st.res (dateOf s.created_at) ++ [mkDayRec s]).length = pd
        · rw [if_pos hq]
          refine ih _ ⟨?_, ?_, ?_, ?_, ?_, ?_⟩
          · exact fun x hx => c1 (Finset.mem_of_mem_erase hx)
          · intro d' hd'
            obtain ⟨hne, hmem⟩ := Finset.mem_erase.mp hd'
            rw [countD_append, c2 d' hmem,
              countD_single_other _ _ _ _ hl_all hne]
          · intro d'
            by_cases hdd : d' = dateOf s.created_at
            · subst hdd
              rw [countD_append, c2 _ hdin,
                countD_single_self _ _ _ hl_all, hq]
              exact Or.inr (by omega)
            · rw [countD_append, countD_single_other _ _ _ _ hl_all hdd]
              simpa using c3 d'
          · intro hpw d' hd'init hd'gone
            by_cases hdd : d' = dateOf s.created_at
            · subst hdd
              rw [countD_append, c2 _ hdin,
                countD_single_self _ _ _ hl_all, hq]
              omega
            · have : d' ∉ st.needed := by
                intro hmem
                exact hd'gone (Finset.mem_erase.mpr ⟨hdd, hmem⟩)
              rw [countD_append, countD_single_other _ _ _ _ hl_all hdd,
                c4 hpw d' hd'init this]
              omega
          · intro d' r hr
            rw [delRes_setRes, getRes_delRes] at hr
            by_cases hdd : d' = dateOf s.created_at
            · rw [if_pos hdd] at hr
              simp at hr
            · rw [if_neg hdd] at hr
              exact c5 d' r hr
          · intro w hw
            rcases List.mem_append.mp hw with h' | h'
            · exact c6 w h'
            · simp at h'
              rw [h']
              exact hq
        · rw [if_neg hq]
          refine ih _ ⟨c1, c2, c3, c4, ?_, c6⟩
          intro d' r hr
          rw [getRes_setRes] at hr
          by_cases hdd : d' = dateOf s.created_at
          · rw [if_pos hdd] at hr
            exact hdd ▸ hl_all r hr
          · rw [if_neg hdd] at hr
            exact c5 d' r hr

lemma runPerDay_CInv (feed : Feed) (since : Int) (initial : Finset Int)
    (ps pd : Nat) (fuel : Nat) (max_id : Option Int) (st : PDState)
    (h : CInv initial pd st) (res : PDResult)
    (hrun : runPerDay feed since ps pd fuel max_id st = some res) :
    (∀ w ∈ res.out, w.rows.length = pd) ∧
    (∀ d, countD d res.out = 0 ∨ countD d res.out = pd) ∧
    (res.warnedAt = none → res.past_window = false →
       ∀ d ∈ initial, countD d res.out = pd) ∧
    (∀ S, res.warnedAt = some S →
       S = res.needed ∧ S ≠ ∅ ∧ ∀ d ∈ S, countD d res.out = 0) := by
  induction fuel generalizing max_id st with
  | zero => simp [runPerDay] at hrun
  | succ n ih =>
    rw [runPerDay] at hrun
    by_cases hne : st.needed = ∅
    · rw [if_pos hne] at hrun
      injection hrun with h'
      obtain ⟨c1, c2, c3, c4, c5, c6⟩ := h
      rw [← h']
      refine ⟨c6, c3, ?_, ?_⟩
      · intro _ hpw d hdinit
        exact c4 hpw d hdinit (hne ▸ Finset.not_mem_empty d)
      · intro S hS
        exact absurd hS (by simp)
    · rw [if_neg hne] at hrun
      by_cases hb : feed ps max_id = []
      · rw [dif_pos hb] at hrun
        injection hrun with h'
        obtain ⟨c1, c2, c3, c4, c5, c6⟩ := h
        rw [← h']
        refine ⟨c6, c3, ?_, ?_⟩
        · intro habs
          exact absurd habs (by simp)
        · intro S hS
          simp only at hS
          injection hS with hS
          exact ⟨hS.symm ▸ rfl, hS ▸ hne, fun d hd => c2 d (hS ▸ hd)⟩
      · rw [dif_neg hb] at hrun
        exact ih _ _ (processDayBatch_CInv since initial pd (feed ps max_id) st h) hrun

/-! ### Per-day paginator: no-duplicate invariant -/

lemma mkDayRec_id (s : Status) : (mkDayRec s).id = s.id := rfl

lemma allDayRows_shuffle (A g D X : List DayRec) (r : DayRec)
    (h : List.Perm X (g ++ D)) :
    List.Perm (A ++ ((g ++ [r]) ++ D)) ((A ++ X) ++ [r]) := by
  have h1 : List.Perm ((g ++ [r]) ++ D) (X ++ [r]) := by
    rw [List.append_assoc]
    have p2 : List.Perm (g ++ ([r] ++ D)) (g ++ (D ++ [r])) :=
      List.Perm.append_left g List.perm_append_comm
    have p3 : List.Perm ((g ++ D) ++ [r]) (X ++ [r]) :=
      List.Perm.append_right [r] h.symm
    exact p2.trans (by rw [← List.append_assoc]; exact p3)
  have h2 := h1.append_left A
  have e : (A ++ X) ++ [r] = A ++ (X ++ [r]) := List.append_assoc A X [r]
  rw [e]
  exact h2

lemma processDayBatch_nodup (since : Int) (pd : Nat) (batch : List Status)
    (st : PDState)
    (hp : (batch.map Status.id).Pairwise (· > ·))
    (hk : (st.res.map Prod.fst).Nodup)
    (hn : ((allDayRows st).map DayRec.id).Nodup)
    (hlt : ∀ r ∈ allDayRows st, ∀ s ∈ batch, s.id < r.id) :
    ((processDayBatch since pd batch st).res.map Prod.fst).Nodup ∧
    ((allDayRows (processDayBatch since pd batch st)).map DayRec.id).Nodup ∧
    (∀ r ∈ allDayRows (processDayBatch since pd batch st),
       r ∈ allDayRows st ∨ r.id ∈ batch.map Status.id) := by
  induction batch generalizing st with
  | nil =>
    simp only [processDayBatch]
    exact ⟨hk, hn, fun r hr => Or.inl hr⟩
  | cons s rest ih =>
    have hgt : ∀ x ∈ rest.map Status.id, s.id > x := by
      simp only [List.map_cons, List.pairwise_cons] at hp
      exact hp.1
    have hp' : (rest.map Status.id).Pairwise (· > ·) := by
      simp only [List.map_cons, List.pairwise_cons] at hp
      exact hp.2
    have hsid : s.id ∉ (allDayRows st).map DayRec.id := by
      intro hmem
      rcases List.mem_map.mp hmem with ⟨r, hr, hrid⟩
      exact absurd (hlt r hr s (List.mem_cons_self s rest)) (by omega)
    simp only [processDayBatch]
    by_cases hlts : s.created_at < since
    · rw [if_pos hlts]
      exact ⟨hk, hn, fun r hr => Or.inl hr⟩
    · rw [if_neg hlts]
      by_cases hd : dateOf s.created_at ∉ st.needed
      · rw [if_pos hd]
        obtain ⟨k1, k2, k3⟩ := ih st hp' hk hn
          (fun r hr s' hs' => hlt r hr s' (List.mem_cons_of_mem s hs'))
        refine ⟨k1, k2, fun r hr => ?_⟩
        rcases k3 r hr with h' | h'
        · exact Or.inl h'
        · exact Or.inr (List.mem_cons_of_mem _ h')
      · rw [if_neg hd]
        -- both the flush and the no-flush branch add exactly `mkDayRec s`
        -- to the held rows, up to permutation
        have hresperm := resRows_delRes_perm st.res (dateOf s.created_at) hk
        by_cases hq : (getRes st.res (dateOf s.created_at) ++ [mkDayRec s]).length = pd
        · rw [if_pos hq]
          set st₂ : PDState :=
            { needed := st.needed.erase (dateOf s.created_at)
              res := delRes (setRes st.res (dateOf s.created_at)
                (getRes st.res (dateOf s.created_at) ++ [mkDayRec s])) (dateOf s.created_at)
              first_write := false
              out := st.out ++ [⟨st.first_write,
                getRes st.res (dateOf s.created_at) ++ [mkDayRec s]⟩]
              past_window := st.past_window } with hst₂
          have hres₂ : st₂.res = delRes st.res (dateOf s.created_at) := by
            rw [hst₂]
            exact delRes_setRes _ _ _
          have hperm : List.Perm (allDayRows st₂) (allDayRows st ++ [mkDayRec s]) := by
            have e : allDayRows st₂ =
                outRows st.out ++
                  ((getRes st.res (dateOf s.created_at) ++ [mkDayRec s]) ++
                    resRows (delRes st.res (dateOf s.created_at))) := by
              rw [allDayRows, hres₂, hst₂]
              simp only [outRows_append, outRows_cons, outRows_nil, List.append_nil]
              rw [List.append_assoc]
            rw [e, allDayRows]
            exact allDayRows_shuffle _ _ _ _ _ hresperm
          have hk₂ : (st₂.res.map Prod.fst).Nodup := by
            rw [hres₂]
            exact keys_delRes_nodup st.res _ hk
          have hn₂ : ((allDayRows st₂).map DayRec.id).Nodup := by
            refine ((hperm.map DayRec.id).symm).nodup ?_
            rw [List.map_append]
            rw [List.nodup_append]
            refine ⟨hn, by simp, ?_⟩
            intro x hx hy
            simp [mkDayRec_id] at hy
            exact hsid (hy ▸ hx)
          have hmem₂ : ∀ r ∈ allDayRows st₂,
              r ∈ allDayRows st ∨ r = mkDayRec s := by
            intro r hr
            have := hperm.subset hr
            rcases List.mem_append.mp this with h' | h'
            · exact Or.inl h'
            · simp at h'
              exact Or.inr h'
          have hlt₂ : ∀ r ∈ allDayRows st₂, ∀ s' ∈ rest, s'.id < r.id := by
            intro r hr s' hs'
            rcases hmem₂ r hr with h' | h'
            · exact hlt r h' s' (List.mem_cons_of_mem s hs')
            · have := hgt s'.id (List.mem_map_of_mem Status.id hs')
              rw [h', mkDayRec_id]
              omega
          obtain ⟨k1, k2, k3⟩ := ih st₂ hp' hk₂ hn₂ hlt₂
          refine ⟨k1, k2, fun r hr => ?_⟩
          rcases k3 r hr with h' | h'
          · rcases hmem₂ r h' with h'' | h''
            · exact Or.inl h''
            · exact Or.inr (by simp [h'', mkDayRec_id])
          · exact Or.inr (List.mem_cons_of_mem _ h')
        · rw [if_neg hq]
          set st₁ : PDState :=
            { st with
              res := setRes st.res (dateOf s.created_at)
                (getRes st.res (dateOf s.created_at) ++ [mkDayRec s]) } with hst₁
          have hperm : List.Perm (allDayRows st₁) (allDayRows st ++ [mkDayRec s]) := by
            have e : allDayRows st₁ =
                outRows st.out ++
                  ((getRes st.res (dateOf s.created_at) ++ [mkDayRec s]) ++
                    resRows (delRes st.res (dateOf s.created_at))) := by
              rw [allDayRows, hst₁]
              simp only [setRes, resRows_cons]
            rw [e, allDayRows]
            exact allDayRows_shuffle _ _ _ _ _ hresperm
          have hk₁ : (st₁.res.map Prod.fst).Nodup := keys_setRes_nodup _ _ _ hk
          have hn₁ : ((allDayRows st₁).map DayRec.id).Nodup := by
            refine ((hperm.map DayRec.id).symm).nodup ?_
            rw [List.map_append]
            rw [List.nodup_append]
            refine ⟨hn, by simp, ?_⟩
            intro x hx hy
            simp [mkDayRec_id] at hy
            exact hsid (hy ▸ hx)
          have hmem₁ : ∀ r ∈ allDayRows st₁,
              r ∈ allDayRows st ∨ r = mkDayRec s := by
            intro r hr
            have := hperm.subset hr
            rcases List.mem_append.mp this with h' | h'
            · exact Or.inl h'
            · simp at h'
              exact Or.inr h'
          have hlt₁ : ∀ r ∈ allDayRows st₁, ∀ s' ∈ rest, s'.id < r.id := by
            intro r hr s' hs'
            rcases hmem₁ r hr with h' | h'
            · exact hlt r h' s' (List.mem_cons_of_mem s hs')
            · have := hgt s'.id (List.mem_map_of_mem Status.id hs')
              rw [h', mkDayRec_id]
              omega
          obtain ⟨k1, k2, k3⟩ := ih st₁ hp' hk₁ hn₁ hlt₁
          refine ⟨k1, k2, fun r hr => ?_⟩
          rcases k3 r hr with h' | h'
          · rcases hmem₁ r h' with h'' | h''
            · exact Or.inl h''
            · exact Or.inr (by simp [h'', mkDayRec_id])
          · exact Or.inr (List.mem_cons_of_mem _ h')

lemma runPerDay_nodup (feed : Feed) (since : Int) (ps pd : Nat)
    (hs : FeedSorted feed) (hc : FeedCursorLe feed)
    (fuel : Nat) (max_id : Option Int) (st : PDState)
    (hk : (st.res.map Prod.fst).Nodup)
    (hn : ((allDayRows st).map DayRec.id).Nodup)
    (hcur : ∀ r ∈ allDayRows st, ∀ s ∈ feed ps max_id, s.id < r.id)
    (res : PDResult)
    (hrun : runPerDay feed since ps pd fuel max_id st = some res) :
    ((outRows res.out).map DayRec.id).Nodup := by
  induction fuel generalizing max_id st with
  | zero => simp [runPerDay] at hrun
  | succ n ih =>
    have hout : ((outRows st.out).map DayRec.id).Nodup := by
      have := hn
      rw [allDayRows, List.map_append] at this
      exact this.of_append_left
    rw [runPerDay] at hrun
    by_cases hne : st.needed = ∅
    · rw [if_pos hne] at hrun
      injection hrun with h'
      rw [← h']
      exact hout
    · rw [if_neg hne] at hrun
      by_cases hb : feed ps max_id = []
      · rw [dif_pos hb] at hrun
        injection hrun with h'
        rw [← h']
        exact hout
      · rw [dif_neg hb] at hrun
        obtain ⟨k1, k2, k3⟩ := processDayBatch_nodup since pd (feed ps max_id) st
          (hs ps max_id) hk hn hcur
        refine ih _ _ k1 k2 ?_ hrun
        intro r hr s' hs'
        have hlast : ((feed ps max_id).getLast hb).id < r.id ∨
            ((feed ps max_id).getLast hb).id ≤ r.id := by
          rcases k3 r hr with h' | h'
          · exact Or.inl (hcur r h' _ (List.getLast_mem hb))
          · rcases List.mem_map.mp h' with ⟨s₀, hs₀, hid⟩
            exact Or.inr (hid ▸ getLast_id_le (feed ps max_id) hb (hs ps max_id) s₀ hs₀)
        have hle : s'.id ≤ ((feed ps max_id).getLast hb).id - 1 := hc ps _ s' hs'
        rcases hlast with h' | h'
        · omega
        · omega

/-! ### Follower paginator -/

lemma map_id_getLastD (l : List Follower) (h : l ≠ []) :
    (l.map Follower.id).getLastD 0 = (l.getLast h).id := by
  induction l with
  | nil => exact absurd rfl h
  | cons a t ih =>
    cases t with
    | nil => rfl
    | cons b t' =>
      have ht : b :: t' ≠ [] := by simp
      rw [List.getLast_cons ht, ← ih ht]
      simp [List.getLastD_cons]

lemma head?_append_some {α : Type} (l l' : List α) (a : α)
    (h : l.head? = some a) : (l ++ l').head? = some a := by
  cases l with
  | nil => simp at h
  | cons x t => simpa using h

lemma runFollowers_spec (feed : FolFeed) (ps : Nat) (fuel : Nat)
    (max_id : Option Int) (acc : List Follower) (calls : List (Option Int))
    (h1 : List.Chain' (folStep feed ps) (calls ++ [max_id]))
    (h2 : acc = ((calls.map (feed ps)).flatten))
    (h3 : (calls ++ [max_id]).head? = some none)
    (calls' : List (Option Int)) (acc' : List Follower)
    (hrun : runFollowers feed ps fuel max_id acc calls = some (calls', acc')) :
    List.Chain' (folStep feed ps) calls' ∧
    acc' = (calls'.map (feed ps)).flatten ∧
    calls' ≠ [] ∧
    calls'.head? = some none ∧
    ∀ h : calls' ≠ [], feed ps (calls'.getLast h) = [] := by
  induction fuel generalizing max_id acc calls with
  | zero => simp [runFollowers] at hrun
  | succ n ih =>
    rw [runFollowers] at hrun
    by_cases hb : feed ps max_id = []
    · rw [dif_pos hb] at hrun
      have hc : calls' = calls ++ [max_id] ∧ acc' = acc := by
        injection hrun with h'
        injection h' with ha hb'
        exact ⟨ha.symm, hb'.symm⟩
      obtain ⟨hc1, hc2⟩ := hc
      subst hc1
      subst hc2
      refine ⟨h1, ?_, by simp, h3, ?_⟩
      · rw [h2]
        simp [hb]
      · intro h
        have : (calls ++ [max_id]).getLast h = max_id := by
          rw [List.getLast_append' calls [max_id] (by simp)]
          rfl
        rw [this]
        exact hb
    · rw [dif_neg hb] at hrun
      refine ih (some (((feed ps max_id).getLast hb).id - 1)) (acc ++ feed ps max_id)
        (calls ++ [max_id]) ?_ ?_ ?_ hrun
      · refine List.Chain'.append h1 (by simp) ?_
        intro x hx y hy
        simp only [List.head?_cons, Option.mem_def, Option.some.injEq] at hy
        have hxval : max_id = x := by
          rw [List.getLast?_concat] at hx
          simpa using hx
        rw [← hxval]
        refine ⟨hb, ?_⟩
        rw [← hy, map_id_getLastD (feed ps max_id) hb]
      · rw [h2]
        simp
      · exact head?_append_some _ _ _ h3

/-! ### Remaining helper lemmas -/

lemma length_outRows {α : Type} (out : List (Write α)) :
    (outRows out).length = (out.map (fun w => w.rows.length)).sum := by
  simp [outRows, List.map_map, Function.comp_def]

lemma stepAccept_buflen (since untl : Int) (fe : Nat) (s : Status) (st : StState)
    (hfe : 1 ≤ fe) (h : st.buffer.length < fe) :
    (stepAccept since untl fe s st).buffer.length < fe := by
  unfold stepAccept
  by_cases hw : since ≤ s.created_at ∧ s.created_at ≤ untl
  · simp only [if_pos hw]
    by_cases hlen : fe ≤ st.buffer.length + 1
    · simp [hlen]
      omega
    · simp [hlen]
      omega
  · simpa [if_neg hw] using h

lemma processStatuses_buflen (since untl : Int) (fe : Nat) (batch : List Status)
    (st : StState) (hfe : 1 ≤ fe) (h : st.buffer.length < fe) :
    ∀ st', processStatuses since untl fe batch st = .next st' →
      st'.buffer.length < fe := by
  induction batch generalizing st with
  | nil =>
    intro st' hst'
    simp [processStatuses] at hst'
    exact hst' ▸ h
  | cons s rest ih =>
    intro st' hst'
    by_cases hlt : s.created_at < since
    · simp [processStatuses, hlt] at hst'
    · simp only [processStatuses, if_neg hlt] at hst'
      exact ih _ (stepAccept_buflen since untl fe s st hfe h) st' hst'

/-! ### The claims -/

/-- C1, counterexample: as stated, the claim is false — the per-day
paginator can write a record whose timestamp exceeds `until` when it falls
on `until`'s calendar day. Concretely, with window [0, 100] and quota 1,
`feedHighTs`'s record at timestamp 200 is written. -/
theorem claim_C1_counterexample :
    ¬ ((∀ (feed : Feed) (since untl : Int) (ps fe fuel : Nat)
          (calls : List (Option Int)) (out : List (Write StRec)),
          fetch_local_statuses_in_date_range feed since untl ps fe fuel =
            some (calls, out) →
          ∀ r ∈ outRows out, since ≤ r.created_at ∧ r.created_at ≤ untl) ∧
       (∀ (feed : Feed) (since untl : Int) (ps pd fuel : Nat) (res : PDResult),
          fetch_fixed_per_day feed since untl ps pd fuel = some res →
          ∀ r ∈ outRows res.out, since ≤ r.created_at ∧ r.created_at ≤ untl)) := by
  intro h
  have hrun : fetch_fixed_per_day feedHighTs 0 100 40 1 5 = some resHighExp := by
    decide
  have hmem : mkDayRec (stEx 5 200) ∈ outRows resHighExp.out := by decide
  have := (h.2 feedHighTs 0 100 40 1 5 resHighExp hrun _ hmem).2
  exact absurd this (by decide)

/-- C1 (amended): every record written by the streaming paginator satisfies
`since ≤ timestamp ≤ until`; every record written by the per-day paginator
satisfies `since ≤ timestamp` and falls on a calendar date no later than
`until`'s date (it may exceed `until` within `until`'s own day). -/
theorem claim_C1_amended :
    (∀ (feed : Feed) (since untl : Int) (ps fe fuel : Nat)
        (calls : List (Option Int)) (out : List (Write StRec)),
        fetch_local_statuses_in_date_range feed since untl ps fe fuel =
          some (calls, out) →
        ∀ r ∈ outRows out, since ≤ r.created_at ∧ r.created_at ≤ untl) ∧
    (∀ (feed : Feed) (since untl : Int) (ps pd fuel : Nat) (res : PDResult),
        fetch_fixed_per_day feed since untl ps pd fuel = some res →
        ∀ r ∈ outRows res.out,
          since ≤ r.created_at ∧ dateOf r.created_at ≤ dateOf untl) := by
  constructor
  · intro feed since untl ps fe fuel calls out hrun
    refine runStream_window feed since untl ps fe fuel none ⟨true, [], []⟩ [] ?_ calls out hrun
    intro r hr
    simp [allRows, outRows] at hr
  · intro feed since untl ps pd fuel res hrun
    refine runPerDay_window feed since untl ps pd fuel none
      ⟨neededDatesInit since untl, [], true, [], false⟩ ⟨?_, ?_, ?_⟩ res hrun
    · intro r hr
      simp [outRows] at hr
    · intro d r hr
      simp [getRes_nil] at hr
    · exact fun x hx => hx

/-- C1, witness: both halves of the amended claim applied to concrete runs. -/
theorem claim_C1_witness :
    ((0:Int) ≤ (mkRec (stEx 10 500)).created_at ∧
      (mkRec (stEx 10 500)).created_at ≤ 1000) ∧
    ((0:Int) ≤ (mkDayRec (stEx 5 200)).created_at ∧
      dateOf (mkDayRec (stEx 5 200)).created_at ≤ dateOf 100) :=
  ⟨claim_C1_amended.1 feedFive 0 1000 40 2 5 [none, some 5] outFiveExp
      (by decide) _ (by decide),
   claim_C1_amended.2 feedHighTs 0 100 40 1 5 resHighExp
      (by decide) _ (by decide)⟩

/-- C2, counterexample: as stated, the claim is false — on exhaustion the
records accumulated in an under-quota bucket are NOT written. With window
[0, 86399], quota 2, `feedOneLow` accumulates one record for date 0, the
feed exhausts, the warning is logged, and the output stays empty. -/
theorem claim_C2_counterexample :
    ¬ (∀ (feed : Feed) (since untl : Int) (ps pd fuel : Nat)
         (res : PDResult) (S : Finset Int),
         fetch_fixed_per_day feed since untl ps pd fuel = some res →
         res.warnedAt = some S →
         ∀ d, ∀ r ∈ getRes res.res d, r ∈ outRows res.out) := by
  intro h
  have hrun : fetch_fixed_per_day feedOneLow 0 86399 40 2 5 = some resLowExp := by
    decide
  have := h feedOneLow 0 86399 40 2 5 resLowExp {0} hrun (by decide)
    0 (mkDayRec (stEx 5 10)) (by decide)
  exact absurd this (by decide)

/-- C2 (amended): if the feed is exhausted before every bucket reaches its
quota, the paginator logs the non-fatal warning (recorded with the
non-empty set of still-needed dates) and keeps the output written so far —
which consists exactly of full-quota buckets; the records accumulated in
buckets below quota are discarded, not written. -/
theorem claim_C2_amended (feed : Feed) (since untl : Int) (ps pd fuel : Nat)
    (res : PDResult) (S : Finset Int)
    (hrun : fetch_fixed_per_day feed since untl ps pd fuel = some res)
    (hw : res.warnedAt = some S) :
    S ≠ ∅ ∧ S = res.needed ∧
    (∀ w ∈ res.out, w.rows.length = pd) ∧
    (∀ d ∈ S, countD d res.out = 0) := by
  have hinv := runPerDay_CInv feed since (neededDatesInit since untl) ps pd fuel
    none ⟨neededDatesInit since untl, [], true, [], false⟩ ?_ res hrun
  · obtain ⟨r1, r2, r3, r4⟩ := hinv
    obtain ⟨w1, w2, w3⟩ := r4 S hw
    exact ⟨w2, w1, r1, w3⟩
  · refine ⟨fun x hx => hx, ?_, ?_, ?_, ?_, ?_⟩
    · intro d hd
      simp [countD, outRows]
    · intro d
      left
      simp [countD, outRows]
    · intro _ d hdinit hdnot
      exact absurd hdinit hdnot
    · intro d r hr
      simp [getRes_nil] at hr
    · intro w hw'
      simp at hw'

/-- C2, witness: the amended claim at the concrete exhausted run. -/
theorem claim_C2_witness :
    ({(0:Int)} : Finset Int) ≠ ∅ ∧ countD 0 resLowExp.out = 0 :=
  ⟨(claim_C2_amended feedOneLow 0 86399 40 2 5 resLowExp {0}
      (by decide) (by decide)).1,
   (claim_C2_amended feedOneLow 0 86399 40 2 5 resLowExp {0}
      (by decide) (by decide)).2.2.2 0 (by decide)⟩

/-- C3, counterexample: as stated, the claim is false — the walk can end
because a record older than `since` cleared the needed set, with the feed
never exhausted, leaving a spanned date short of quota. With window
[0, 172799] (dates 0 and 1) and quota 1, `feedClearEarly` fills date 1 and
then steps below `since`; date 0 ends with zero output records although no
empty page was ever returned. -/
theorem claim_C3_counterexample :
    ¬ (∀ (feed : Feed) (since untl : Int) (ps pd fuel : Nat) (res : PDResult),
         fetch_fixed_per_day feed since untl ps pd fuel = some res →
         ∀ d ∈ neededDatesInit since untl,
           countD d res.out ≤ pd ∧
           (res.warnedAt = none → countD d res.out = pd)) := by
  intro h
  have hrun : fetch_fixed_per_day feedClearEarly 0 172799 40 1 5 =
      some resClearExp := by decide
  have := (h feedClearEarly 0 172799 40 1 5 resClearExp hrun 0 (by decide)).2
    (by decide)
  exact absurd this (by decide)

/-- C3 (amended): for every calendar date spanned by [since, until], the
number of output records dated on it is at most the quota; and it equals
the quota unless the walk ended early — by feed exhaustion or by reaching
a record older than `since` — before every bucket filled. -/
theorem claim_C3_amended (feed : Feed) (since untl : Int) (ps pd fuel : Nat)
    (res : PDResult)
    (hrun : fetch_fixed_per_day feed since untl ps pd fuel = some res) :
    (∀ d ∈ neededDatesInit since untl, countD d res.out ≤ pd) ∧
    (res.warnedAt = none → res.past_window = false →
       ∀ d ∈ neededDatesInit since untl, countD d res.out = pd) := by
  have hinv := runPerDay_CInv feed since (neededDatesInit since untl) ps pd fuel
    none ⟨neededDatesInit since untl, [], true, [], false⟩ ?_ res hrun
  · obtain ⟨r1, r2, r3, r4⟩ := hinv
    constructor
    · intro d _
      rcases r2 d with h' | h'
      · omega
      · omega
    · intro hnone hpw d hd
      exact r3 hnone hpw d hd
  · refine ⟨fun x hx => hx, ?_, ?_, ?_, ?_, ?_⟩
    · intro d hd
      simp [countD, outRows]
    · intro d
      left
      simp [countD, outRows]
    · intro _ d hdinit hdnot
      exact absurd hdinit hdnot
    · intro d r hr
      simp [getRes_nil] at hr
    · intro w hw'
      simp at hw'

/-- C3, witness: the amended claim at a run that completes all quotas. -/
theorem claim_C3_witness :
    countD 0 resHighExp.out ≤ 1 ∧ countD 0 resHighExp.out = 1 :=
  ⟨(claim_C3_amended feedHighTs 0 100 40 1 5 resHighExp (by decide)).1
      0 (by decide),
   (claim_C3_amended feedHighTs 0 100 40 1 5 resHighExp (by decide)).2
      (by decide) (by decide) 0 (by decide)⟩

/-- C4: in the streaming paginator, a record older than `since` flushes the
buffer and terminates immediately — the remainder of the page is not
processed (the result does not depend on it) and no further page is
fetched (exactly one feed call is recorded for the final page) — while a
record with timestamp above `until` is skipped without stopping the walk
and without changing the state. -/
theorem claim_C4 (since untl : Int) (fe : Nat) :
    (∀ (s : Status) (rest : List Status) (st : StState),
       s.created_at < since →
       processStatuses since untl fe (s :: rest) st = .stop (flushBuf st)) ∧
    (∀ (feed : Feed) (ps fuel : Nat) (max_id : Option Int) (st : StState)
       (calls : List (Option Int)) (s : Status) (rest : List Status),
       feed ps max_id = s :: rest → s.created_at < since →
       runStream feed since untl ps fe (fuel + 1) max_id st calls =
         some (calls ++ [max_id], flushBuf st)) ∧
    (∀ (s : Status) (rest : List Status) (st : StState),
       ¬ s.created_at < since → untl < s.created_at →
       processStatuses since untl fe (s :: rest) st =
         processStatuses since untl fe rest st ∧
       stepAccept since untl fe s st = st) := by
  refine ⟨?_, ?_, ?_⟩
  · intro s rest st hlt
    simp [processStatuses, hlt]
  · intro feed ps fuel max_id st calls s rest hfeed hlt
    rw [runStream]
    have hb : ¬ feed ps max_id = [] := by
      rw [hfeed]
      simp
    rw [dif_neg hb]
    have hstop : processStatuses since untl fe (feed ps max_id) st =
        .stop (flushBuf st) := by
      rw [hfeed]
      simp [processStatuses, hlt]
    rw [hstop]
  · intro s rest st hge hgt
    have hcond : ¬ (since ≤ s.created_at ∧ s.created_at ≤ untl) := by
      intro hcon
      omega
    have hstep : stepAccept since untl fe s st = st := by
      simp [stepAccept, hcond]
    exact ⟨by simp [processStatuses, hge, hstep], hstep⟩

/-- C4, witness: the three behaviours at concrete inputs — early stop on a
page, early stop of the whole run after one call, and skip-and-continue. -/
theorem claim_C4_witness :
    processStatuses 100 1000 2 (stEx 5 10 :: [stEx 4 50]) stEmpty =
      .stop (flushBuf stEmpty) ∧
    runStream feedOneLow 100 1000 40 2 1 none stEmpty [] =
      some ([] ++ [none], flushBuf stEmpty) ∧
    (processStatuses 100 1000 2 (stEx 7 2000 :: []) stEmpty =
       processStatuses 100 1000 2 [] stEmpty ∧
     stepAccept 100 1000 2 (stEx 7 2000) stEmpty = stEmpty) :=
  ⟨(claim_C4 100 1000 2).1 (stEx 5 10) [stEx 4 50] stEmpty (by decide),
   (claim_C4 100 1000 2).2.1 feedOneLow 40 0 none stEmpty [] (stEx 5 10) []
     (by decide) (by decide),
   (claim_C4 100 1000 2).2.2 (stEx 7 2000) [] stEmpty (by decide) (by decide)⟩

/-- C5: under the feed-order preconditions (strictly decreasing identifiers
within each page, and every record of a cursored page bounded by the
cursor), neither status paginator ever writes the same record twice: the
output identifiers are pairwise distinct. -/
theorem claim_C5 (feed : Feed) (hs : FeedSorted feed) (hc : FeedCursorLe feed) :
    (∀ (since untl : Int) (ps fe fuel : Nat) (calls : List (Option Int))
        (out : List (Write StRec)),
        fetch_local_statuses_in_date_range feed since untl ps fe fuel =
          some (calls, out) →
        ((outRows out).map StRec.id).Nodup) ∧
    (∀ (since untl : Int) (ps pd fuel : Nat) (res : PDResult),
        fetch_fixed_per_day feed since untl ps pd fuel = some res →
        ((outRows res.out).map DayRec.id).Nodup) := by
  constructor
  · intro since untl ps fe fuel calls out hrun
    refine runStream_nodup feed since untl ps fe hs hc fuel none ⟨true, [], []⟩ []
      ?_ ?_ calls out hrun
    · simp [allRows, outRows]
    · intro r hr
      simp [allRows, outRows] at hr
  · intro since untl ps pd fuel res hrun
    refine runPerDay_nodup feed since ps pd hs hc fuel none
      ⟨neededDatesInit since untl, [], true, [], false⟩ ?_ ?_ ?_ res hrun
    · simp
    · simp [allDayRows, outRows, resRows]
    · intro r hr
      simp [allDayRows, outRows, resRows] at hr

/-- C5, witness: distinct output ids on a concrete ordered feed. -/
theorem claim_C5_witness : ((outRows outFiveExp).map StRec.id).Nodup := by
  have hs : FeedSorted feedFive := by
    intro ps c
    cases c with
    | none =>
      have he : feedFive ps none =
          [stEx 10 500, stEx 9 400, stEx 8 300, stEx 7 200, stEx 6 100] := rfl
      rw [he]
      decide
    | some x => simp [feedFive]
  have hc : FeedCursorLe feedFive := by
    intro ps c s hmem
    simp [feedFive] at hmem
  exact (claim_C5 feedFive hs hc).1 0 1000 40 2 5 [none, some 5] outFiveExp
    (by decide)

/-- C6: in a run with `flush_every = 2` that wrote five in-window records,
the output is exactly three writes of sizes 2, 2, 1, and the column header
appears only on the first of them. -/
theorem claim_C6 (feed : Feed) (since untl : Int) (ps fuel : Nat)
    (calls : List (Option Int)) (out : List (Write StRec))
    (hrun : fetch_local_statuses_in_date_range feed since untl ps 2 fuel =
      some (calls, out))
    (hfive : (outRows out).length = 5) :
    out.map (fun w => w.rows.length) = [2, 2, 1] ∧
    out.map Write.header = [true, false, false] := by
  have hshape := runStream_shape feed since untl ps 2 fuel none ⟨true, [], []⟩ []
    (by omega) ⟨by simp, by simp, by simp [headerPat], by decide⟩ calls out hrun
  obtain ⟨k, b, hb, hlen, hhead⟩ := hshape
  have hsum := length_outRows out
  rw [hfive, hlen] at hsum
  by_cases hb0 : b = 0
  · rw [hb0] at hsum
    simp [List.sum_replicate, smul_eq_mul] at hsum
    omega
  · simp [hb0, List.sum_append, List.sum_replicate, smul_eq_mul] at hsum
    have hk : k = 2 := by omega
    have hb1 : b = 1 := by omega
    rw [hk, hb1] at hlen
    have h1 : out.map (fun w => w.rows.length) = [2, 2, 1] := by
      rw [hlen]
      simp [List.replicate]
    have hlen3 : out.length = 3 := by
      have := congrArg List.length h1
      simpa using this
    rw [hlen3] at hhead
    have h2 : out.map Write.header = [true, false, false] := by
      rw [hhead]
      simp [headerPat, List.replicate]
    exact ⟨h1, h2⟩

/-- C6, witness: the scenario run — five in-window records, `flush_every`
2 — produces writes of 2, 2 and 1 rows with the header on the first only. -/
theorem claim_C6_witness :
    outFiveExp.map (fun w => w.rows.length) = [2, 2, 1] ∧
    outFiveExp.map Write.header = [true, false, false] :=
  claim_C6 feedFive 0 1000 40 5 [none, some 5] outFiveExp (by decide) (by decide)

/-- C7: processing one record from a state whose buffer is below
`flush_every` leaves the buffer at (strictly below, hence at most)
`flush_every` records, and a record that makes the buffer reach
`flush_every` causes it to be cleared; page processing preserves the
bound across a whole page. -/
theorem claim_C7 (since untl : Int) (fe : Nat) (s : Status) (st : StState)
    (hfe : 1 ≤ fe) (hbuf : st.buffer.length < fe) :
    (stepAccept since untl fe s st).buffer.length ≤ fe ∧
    (stepAccept since untl fe s st).buffer.length < fe ∧
    (st.buffer.length + 1 = fe → since ≤ s.created_at → s.created_at ≤ untl →
       (stepAccept since untl fe s st).buffer = []) ∧
    (∀ (batch : List Status) (st' : StState),
       processStatuses since untl fe batch st = .next st' →
       st'.buffer.length < fe) := by
  have h1 := stepAccept_buflen since untl fe s st hfe hbuf
  refine ⟨le_of_lt h1, h1, ?_, ?_⟩
  · intro heq hw1 hw2
    have hcond : since ≤ s.created_at ∧ s.created_at ≤ untl := ⟨hw1, hw2⟩
    have hflush : fe ≤ st.buffer.length + 1 := by omega
    simp [stepAccept, hcond, hflush]
  · intro batch st' h
    exact processStatuses_buflen since untl fe batch st hfe hbuf st' h

/-- C7, witness: with `flush_every = 2` and one buffered record, accepting
an in-window record clears the buffer. -/
theorem claim_C7_witness :
    (stepAccept 0 1000 2 (stEx 5 500) stOne).buffer.length < 2 ∧
    (stepAccept 0 1000 2 (stEx 5 500) stOne).buffer = [] :=
  ⟨(claim_C7 0 1000 2 (stEx 5 500) stOne (by decide) (by decide)).2.1,
   (claim_C7 0 1000 2 (stEx 5 500) stOne (by decide) (by decide)).2.2.1
     (by decide) (by decide) (by decide)⟩

/-- C8: if the feed's very first page is empty, the streaming paginator
stops after that single call with an empty output and no write at all,
and the per-day paginator (on a non-degenerate window) logs the
partial-completion warning carrying the full needed-date set, with an
empty output. -/
theorem claim_C8 (feed : Feed) (since untl : Int) (ps fe pd fuel : Nat)
    (hemp : feed ps none = []) (hwin : dateOf since ≤ dateOf untl) :
    fetch_local_statuses_in_date_range feed since untl ps fe (fuel + 1) =
      some ([none], []) ∧
    fetch_fixed_per_day feed since untl ps pd (fuel + 1) =
      some ⟨[], some (neededDatesInit since untl), false,
        neededDatesInit since untl, []⟩ := by
  constructor
  · rw [fetch_local_statuses_in_date_range, runStream, dif_pos hemp]
    rfl
  · have hne : neededDatesInit since untl ≠ ∅ :=
      Finset.ne_empty_of_mem
        ((mem_neededDatesInit since untl (dateOf since)).mpr ⟨le_refl _, hwin⟩)
    rw [fetch_fixed_per_day, runPerDay]
    simp only [if_neg hne]
    rw [dif_pos hemp]

/-- C8, witness: the empty feed on the window [0, 0]. -/
theorem claim_C8_witness :
    fetch_local_statuses_in_date_range emptyFeed 0 0 40 2 1 =
      some ([none], []) ∧
    fetch_fixed_per_day emptyFeed 0 0 40 3 1 =
      some ⟨[], some (neededDatesInit 0 0), false, neededDatesInit 0 0, []⟩ :=
  claim_C8 emptyFeed 0 0 40 2 3 0 rfl (by decide)

/-- C9: the follower paginator collects exactly the concatenation of the
pages returned along its cursor trail (no time filtering), the trail
starts with no cursor, each advance goes to the previous page's last id
minus one after a non-empty page, the walk ends on the first empty page,
and the accumulated list is written in one single (header-carrying)
write. -/
theorem claim_C9 (feed : FolFeed) (ps fuel : Nat)
    (calls : List (Option Int)) (acc : List Follower)
    (out : List (Write Follower))
    (hrun : fetch_followers_for_account feed ps fuel = some (calls, acc, out)) :
    out = [⟨true, acc⟩] ∧
    acc = (calls.map (feed ps)).flatten ∧
    calls.head? = some none ∧
    List.Chain' (folStep feed ps) calls ∧
    ∀ h : calls ≠ [], feed ps (calls.getLast h) = [] := by
  rw [fetch_followers_for_account] at hrun
  rcases hrw : runFollowers feed ps fuel none [] [] with _ | p
  · rw [hrw] at hrun
    simp at hrun
  · obtain ⟨c, a⟩ := p
    rw [hrw] at hrun
    injection hrun with h'
    injection h' with hc h''
    injection h'' with ha hout
    subst hc
    subst ha
    subst hout
    have hspec := runFollowers_spec feed ps fuel none [] []
      (by simp) (by simp) (by simp) c a hrw
    exact ⟨rfl, hspec.2.1, hspec.2.2.2.1, hspec.1, hspec.2.2.2.2⟩

/-- C9, witness: a three-page concrete follower feed — the accumulated
list is the concatenation of the pages along the cursor trail, and the
final call hit the empty page. -/
theorem claim_C9_witness :
    folAccExp = (([none, some 7, some 4]).map (folFeedEx 80)).flatten ∧
    folFeedEx 80 ([none, some 7, some 4].getLast (by simp)) = [] := by
  have h := claim_C9 folFeedEx 80 5 [none, some 7, some 4] folAccExp
    [⟨true, folAccExp⟩] (by decide)
  exact ⟨h.2.1, h.2.2.2.2 (by simp)⟩

/-- C10: a feed record lacking `replies_count` is projected with
`replies_count = 0`, one lacking `tags` with an empty `tag_list`, by both
record builders; and such records are included, not rejected — an
in-window record always enters the streaming buffer, and a needed-date
record always enters the per-day reservoirs or output. -/
theorem claim_C10 (s : Status) :
    (s.replies_count = none →
       (mkRec s).replies_count = 0 ∧ (mkDayRec s).replies_count = 0) ∧
    (s.tags = none →
       (mkRec s).tag_list = [] ∧ (mkDayRec s).tag_list = []) ∧
    (∀ (since untl : Int) (fe : Nat) (st : StState),
       since ≤ s.created_at → s.created_at ≤ untl →
       mkRec s ∈ allRows (stepAccept since untl fe s st)) ∧
    (∀ (since : Int) (pd : Nat) (st : PDState),
       ¬ s.created_at < since → dateOf s.created_at ∈ st.needed →
       mkDayRec s ∈ allDayRows (processDayBatch since pd [s] st)) := by
  refine ⟨?_, ?_, ?_, ?_⟩
  · intro h
    simp [mkRec, mkDayRec, h]
  · intro h
    simp [mkRec, mkDayRec, h]
  · intro since untl fe st h1 h2
    rw [allRows_stepAccept, if_pos ⟨h1, h2⟩]
    simp
  · intro since pd st h1 h2
    simp only [processDayBatch]
    rw [if_neg h1, if_neg (not_not_intro h2)]
    by_cases hq : (getRes st.res (dateOf s.created_at) ++ [mkDayRec s]).length = pd
    · rw [if_pos hq]
      unfold allDayRows
      simp only [outRows_append, outRows_cons, outRows_nil, List.append_nil]
      simp
    · rw [if_neg hq]
      unfold allDayRows
      simp only [setRes, resRows_cons]
      simp

/-- C10, witness: the concrete record missing both optional fields is
projected with the defaults and included by both paginator steps. -/
theorem claim_C10_witness :
    (mkRec stMissing).replies_count = 0 ∧
    (mkDayRec stMissing).replies_count = 0 ∧
    (mkRec stMissing).tag_list = [] ∧
    (mkDayRec stMissing).tag_list = [] ∧
    mkRec stMissing ∈ allRows (stepAccept 0 1000 2 stMissing stEmpty) ∧
    mkDayRec stMissing ∈ allDayRows (processDayBatch 0 3 [stMissing] pdStExp) := by
  have h := claim_C10 stMissing
  exact ⟨(h.1 rfl).1, (h.1 rfl).2, (h.2.1 rfl).1, (h.2.1 rfl).2,
    h.2.2.1 0 1000 2 stEmpty (by decide) (by decide),
    h.2.2.2 0 3 pdStExp (by decide) (by decide)⟩

end Masto
